import Mathlib

/-!
Verification of the caption-cleaning core and the Clarifai-client error paths
of the YouTube script/title/description generator (src/app.py).

Strings are modelled as `List Char`; a document is a raw character list that
is stripped and split into lines exactly as the Python source does.
-/

/-- Characters removed by Python `str.strip()` (ASCII whitespace). -/
def pyIsSpace (c : Char) : Bool :=
  c = ' ' || c = '\t' || c = '\n' || c = '\x0b' || c = '\x0c' || c = '\r'

/-- Python `s.strip()`: drop whitespace from both ends (app.py lines 50 and 57). -/
def pyStrip (l : List Char) : List Char :=
  ((l.dropWhile pyIsSpace).reverse.dropWhile pyIsSpace).reverse

/-- Python `s.split("\n")`: split at every newline, keeping empty pieces
(app.py line 50). `splitLines [] = [[]]` mirrors `"".split("\n") == [""]`. -/
def splitLines : List Char → List (List Char)
  | [] => [[]]
  | c :: cs =>
    if c = '\n' then [] :: splitLines cs
    else
      match splitLines cs with
      | [] => [[c]]
      | l :: ls => (c :: l) :: ls

/-- Python `"\n".join(ls)` (app.py line 73). -/
def joinLines : List (List Char) → List Char
  | [] => []
  | [l] => l
  | l :: ls => l ++ '\n' :: joinLines ls

/-- Python `"-->" in line` (app.py line 59): the three-character arrow occurs
as a contiguous substring. -/
def hasArrow (l : List Char) : Bool :=
  decide (['-', '-', '>'] <:+: l)

/-- The loop state of `filter_subtitles`: the two flags and the accumulated
content lines (app.py lines 52-54). -/
structure FiltState where
  pastHeader : Bool
  captureNext : Bool
  content : List (List Char)
  deriving Repr, DecidableEq

/-- One iteration of the `for line in lines` loop of `filter_subtitles`
(app.py lines 56-71). The line is stripped; a timing-marker line sets both
flags; before the header everything is skipped; a non-empty tag-free line is
captured when `captureNext` is set, appended only if it differs from the last
appended line, and always clears `captureNext`. -/
def filterStep (st : FiltState) (rawLine : List Char) : FiltState :=
  let line := pyStrip rawLine
  if hasArrow line then
    { pastHeader := true, captureNext := true, content := st.content }
  else if st.pastHeader = false then
    st
  else if st.captureNext = true ∧ line ≠ [] ∧ '<' ∉ line ∧ '>' ∉ line then
    { pastHeader := st.pastHeader, captureNext := false,
      content :=
        if st.content = [] ∨ st.content.getLast? ≠ some line then
          st.content ++ [line]
        else st.content }
  else
    st

/-- Initial loop state: `past_header = False`, `capture_next = False`,
`content_lines = []` (app.py lines 52-54). -/
def initState : FiltState :=
  { pastHeader := false, captureNext := false, content := [] }

/-- Running the whole loop of `filter_subtitles` over a list of lines. -/
def runFilter (ls : List (List Char)) : FiltState :=
  List.foldl filterStep initState ls

/-- The `content_lines` list produced by `filter_subtitles` on a raw document:
strip the document, split it into lines, run the loop (app.py lines 49-71). -/
def contentLines (s : List Char) : List (List Char) :=
  (runFilter (splitLines (pyStrip s))).content

/-- `filter_subtitles` (app.py lines 49-73): the content lines joined by
newlines. -/
def filter_subtitles (s : List Char) : List Char :=
  joinLines (contentLines s)

/-- Identifier characters of the regex `[\w-]`: word characters (modelled as
ASCII alphanumerics and underscore, Python `\w`) and the hyphen. -/
def isIdChar (c : Char) : Bool :=
  c.isAlphanum || c = '_' || c = '-'

/-- Does the regex `(?<=v=)[\w-]+` match at the front of this tail: a `v=`
marker followed by at least one identifier character. -/
def vMatch : List Char → Bool
  | 'v' :: '=' :: d :: _ => isIdChar d
  | _ => false

/-- The regex search `re.search(r"(?<=v=)[\w-]+", s)` (app.py line 79): scan
left to right for the first position where a `v=` marker is followed by an
identifier character, and return the maximal identifier run after the
marker. -/
def searchVid : List Char → Option (List Char)
  | [] => none
  | c :: rest =>
    if vMatch (c :: rest) = true then
      some (List.takeWhile isIdChar (rest.drop 1))
    else searchVid rest

/-- `extract_video_id` (app.py lines 75-80): the regex match if any, the input
unchanged otherwise. -/
def extract_video_id (s : List Char) : List Char :=
  (searchVid s).getD s

/-- A synthetic timing-marker line (it contains the arrow substring). -/
def synthMarker : List Char := ['-', '-', '>']

/-- Prefix every line with a synthetic timing-marker line. -/
def wrapMarkers : List (List Char) → List (List Char)
  | [] => []
  | l :: ls => synthMarker :: l :: wrapMarkers ls

/-- Invariant satisfied by every captured content line: non-empty, free of
tag delimiters, free of the arrow marker, already stripped, newline-free. -/
def goodLine (l : List Char) : Prop :=
  l ≠ [] ∧ '<' ∉ l ∧ '>' ∉ l ∧ hasArrow l = false ∧ pyStrip l = l ∧ '\n' ∉ l

/-- Python truthiness of an optional string: `None` and the empty string are
falsy. -/
def pyTruthyStr : Option String → Bool
  | none => false
  | some s => if s = "" then false else true

/-- The environment of one `format_with_clarifai_api` call: the environment
variable `CLARIFAI_PAT`, the secrets-store entry (`none` models the
`KeyError`), and the response of the hosted model. -/
structure ClarifaiWorld where
  envPat : Option String
  secretsPat : Option String
  apiStatusCode : Nat
  apiStatusDescription : String
  apiOutputRaw : String

/-- `status_code_pb2.SUCCESS`. -/
def SUCCESS_CODE : Nat := 10000

/-- Observable outcome of one `format_with_clarifai_api` call: the
`st.error` messages shown, the prompts sent to `PostModelOutputs`, and
`some r` when the function returns `r`, `none` when it raises. -/
structure ClarifaiOutcome where
  errors : List String
  requests : List String
  ret : Option (Option String)

/-- `format_with_clarifai_api` (app.py lines 106-152). The credential is read
from the environment first; if falsy, from the secrets store; on `KeyError`
an error is shown and `PAT` stays `None` (lines 109-116). With `PAT = None`
the expression `'Key ' + PAT` on line 121 raises `TypeError` before
`PostModelOutputs` on line 128 is reached: no request, no return value.
Otherwise the request is sent; a non-success status shows the provider error
and returns `None` (lines 146-148); on success the stripped raw text is
returned, or `None` when it is empty (line 152). -/
def format_with_clarifai_api (w : ClarifaiWorld) (raw_text prompt : String) :
    ClarifaiOutcome :=
  let full_prompt := prompt ++ "\n" ++ raw_text ++ "\n"
  let patAndErrs : Option String × List String :=
    if pyTruthyStr w.envPat = true then (w.envPat, [])
    else
      match w.secretsPat with
      | some v => (some v, [])
      | none =>
        (none, ["Failed to retrieve the Clarifai Personal Access Token!"])
  match patAndErrs with
  | (none, errs) => { errors := errs, requests := [], ret := none }
  | (some _, errs) =>
    if w.apiStatusCode ≠ SUCCESS_CODE then
      { errors := errs ++ ["Error from Clarifai API: " ++ w.apiStatusDescription],
        requests := [full_prompt], ret := some none }
    else
      { errors := errs, requests := [full_prompt],
        ret := some (if w.apiOutputRaw = "" then none
                     else some w.apiOutputRaw.trim) }

/-- A prefix of a list is an infix of it. -/
theorem infixOf_pre {α : Type} {l s : List α} (h : l <+: s) : l <:+: s := by
  rcases h with ⟨t, ht⟩
  exact ⟨[], t, by simp [ht]⟩

/-- A suffix of a list is an infix of it. -/
theorem infixOf_suf {α : Type} {l s : List α} (h : l <:+ s) : l <:+: s := by
  rcases h with ⟨u, hu⟩
  exact ⟨u, [], by simp [hu]⟩

/-- An infix stays an infix after consing a head. -/
theorem infixOf_cons {α : Type} {l t : List α} {c : α} (h : l <:+: t) :
    l <:+: c :: t := by
  rcases h with ⟨u, v, huv⟩
  exact ⟨c :: u, v, by simp [huv]⟩

/-- A prefix stays a prefix after consing the same head on both sides. -/
theorem pre_cons {α : Type} {l s : List α} {c : α} (h : l <+: s) :
    (c :: l) <+: (c :: s) := by
  rcases h with ⟨t, ht⟩
  exact ⟨t, by simp [ht]⟩

/-- Splitting never yields the empty list of lines. -/
theorem splitLines_ne_nil : ∀ s : List Char, splitLines s ≠ []
  | [] => by simp [splitLines]
  | c :: cs => by
    simp only [splitLines]
    split
    · simp
    · split <;> simp

/-- No line produced by `splitLines` contains a newline. -/
theorem noNl_of_mem_splitLines : ∀ (s : List Char), ∀ l ∈ splitLines s, '\n' ∉ l := by
  intro s
  induction s with
  | nil =>
    intro l hl
    simp [splitLines] at hl
    simp [hl]
  | cons c cs ih =>
    intro l hl
    simp only [splitLines] at hl
    by_cases hc : c = '\n'
    · rw [if_pos hc] at hl
      rcases List.mem_cons.mp hl with h | h
      · simp [h]
      · exact ih l h
    · rw [if_neg hc] at hl
      cases hsc : splitLines cs with
      | nil => exact absurd hsc (splitLines_ne_nil cs)
      | cons l0 ls =>
        rw [hsc] at hl
        rcases List.mem_cons.mp hl with h | h
        · subst h
          intro hmem
          rcases List.mem_cons.mp hmem with h1 | h1
          · exact hc h1.symm
          · exact ih l0 (hsc ▸ List.mem_cons_self _ _) h1
        · exact ih l (hsc ▸ List.mem_cons.mpr (Or.inr h))

/-- The first line produced by `splitLines` is a prefix of the input. -/
theorem head_splitLines_pre :
    ∀ (s : List Char) {l0 : List Char} {ls : List (List Char)},
      splitLines s = l0 :: ls → l0 <+: s := by
  intro s
  induction s with
  | nil =>
    intro l0 ls h
    simp [splitLines] at h
    simp [h.1]
  | cons c cs ih =>
    intro l0 ls h
    simp only [splitLines] at h
    by_cases hc : c = '\n'
    · rw [if_pos hc] at h
      cases h
      simp
    · rw [if_neg hc] at h
      cases hsc : splitLines cs with
      | nil => exact absurd hsc (splitLines_ne_nil cs)
      | cons m ms =>
        rw [hsc] at h
        cases h
        exact pre_cons (ih hsc)

/-- Every line produced by `splitLines` is an infix of the input. -/
theorem mem_splitLines_infixOf :
    ∀ (s : List Char), ∀ l ∈ splitLines s, l <:+: s := by
  intro s
  induction s with
  | nil =>
    intro l hl
    simp [splitLines] at hl
    exact ⟨[], [], by simp [hl]⟩
  | cons c cs ih =>
    intro l hl
    simp only [splitLines] at hl
    by_cases hc : c = '\n'
    · rw [if_pos hc] at hl
      rcases List.mem_cons.mp hl with h | h
      · exact ⟨[], c :: cs, by simp [h]⟩
      · exact infixOf_cons (ih l h)
    · rw [if_neg hc] at hl
      cases hsc : splitLines cs with
      | nil => exact absurd hsc (splitLines_ne_nil cs)
      | cons l0 ls =>
        rw [hsc] at hl
        rcases List.mem_cons.mp hl with h | h
        · subst h
          exact infixOf_pre (pre_cons (head_splitLines_pre cs hsc))
        · exact infixOf_cons (ih l (hsc ▸ List.mem_cons.mpr (Or.inr h)))

/-- The head of a `dropWhile` result fails the predicate. -/
theorem dropWhile_head_false (p : Char → Bool) :
    ∀ (l : List Char) {c : Char} {r : List Char},
      List.dropWhile p l = c :: r → p c = false := by
  intro l
  induction l with
  | nil => intro c r h; simp [List.dropWhile] at h
  | cons a l ih =>
    intro c r h
    rw [List.dropWhile_cons] at h
    by_cases ha : p a = true
    · rw [if_pos ha] at h
      exact ih h
    · rw [if_neg ha] at h
      cases h
      exact Bool.eq_false_iff.mpr ha

/-- The stripped list is an infix of the original. -/
theorem pyStrip_infixOf (s : List Char) : pyStrip s <:+: s := by
  have h1 : List.dropWhile pyIsSpace s <:+ s := List.dropWhile_suffix pyIsSpace
  have h2 : pyStrip s <+: List.dropWhile pyIsSpace s := by
    have h3 : (pyStrip s).reverse <:+ (List.dropWhile pyIsSpace s).reverse := by
      simp only [pyStrip, List.reverse_reverse]
      exact List.dropWhile_suffix pyIsSpace
    exact List.reverse_suffix.mp h3
  rcases h1 with ⟨u, hu⟩
  rcases h2 with ⟨t, ht⟩
  exact ⟨u, t, by rw [List.append_assoc, ht, hu]⟩

/-- The first character of a stripped list is not whitespace. -/
theorem pyStrip_head_false {s : List Char} {c : Char} {r : List Char}
    (h : pyStrip s = c :: r) : pyIsSpace c = false := by
  have h2 : (pyStrip s).reverse <:+ (List.dropWhile pyIsSpace s).reverse := by
    simp only [pyStrip, List.reverse_reverse]
    exact List.dropWhile_suffix pyIsSpace
  have h3 : pyStrip s <+: List.dropWhile pyIsSpace s := List.reverse_suffix.mp h2
  rcases h3 with ⟨t, ht⟩
  rw [h] at ht
  exact dropWhile_head_false pyIsSpace s ht.symm

/-- The last character of a stripped list is not whitespace. -/
theorem pyStrip_getLast_false {s : List Char} {c : Char}
    (h : (pyStrip s).getLast? = some c) : pyIsSpace c = false := by
  rw [← List.head?_reverse] at h
  have hrev : (pyStrip s).reverse =
      List.dropWhile pyIsSpace (List.dropWhile pyIsSpace s).reverse := by
    simp [pyStrip]
  rw [hrev] at h
  cases hd : List.dropWhile pyIsSpace (List.dropWhile pyIsSpace s).reverse with
  | nil => rw [hd] at h; simp at h
  | cons c' r' =>
    rw [hd] at h
    simp at h
    subst h
    exact dropWhile_head_false pyIsSpace _ hd

/-- Stripping a list whose ends are not whitespace leaves it unchanged. -/
theorem pyStrip_eq_self {s : List Char}
    (h1 : ∀ c ∈ s.head?, pyIsSpace c = false)
    (h2 : ∀ c ∈ s.getLast?, pyIsSpace c = false) : pyStrip s = s := by
  have hd : List.dropWhile pyIsSpace s = s := by
    cases s with
    | nil => rfl
    | cons a l =>
      rw [List.dropWhile_cons, if_neg]
      simp only [Bool.not_eq_true]
      exact h1 a (by simp)
  have hrev : List.dropWhile pyIsSpace s.reverse = s.reverse := by
    cases hr : s.reverse with
    | nil => simp
    | cons a l =>
      rw [List.dropWhile_cons, if_neg]
      simp only [Bool.not_eq_true]
      apply h2 a
      rw [← List.head?_reverse, hr]
      simp
  simp only [pyStrip, hd, hrev, List.reverse_reverse]

/-- Stripping is idempotent. -/
theorem pyStrip_idem (s : List Char) : pyStrip (pyStrip s) = pyStrip s := by
  apply pyStrip_eq_self
  · intro c hc
    cases hp : pyStrip s with
    | nil => rw [hp] at hc; simp at hc
    | cons a r =>
      rw [hp] at hc
      simp at hc
      subst hc
      exact pyStrip_head_false hp
  · intro c hc
    exact pyStrip_getLast_false hc

/-- A newline-free prefix of the input is a prefix of the first line. -/
theorem noNl_pre_head :
    ∀ (u s : List Char), (∀ c ∈ u, c ≠ '\n') → u <+: s →
      ∀ {l0 : List Char} {ls : List (List Char)}, splitLines s = l0 :: ls → u <+: l0 := by
  intro u
  induction u with
  | nil => intro s _ _ l0 ls _; simp
  | cons c u' ih =>
    intro s hnl hpre l0 ls hsp
    rcases hpre with ⟨t, ht⟩
    have hc : c ≠ '\n' := hnl c (by simp)
    subst ht
    simp only [List.cons_append, splitLines, if_neg hc, List.append_eq] at hsp
    cases hsc : splitLines (u' ++ t) with
    | nil => exact absurd hsc (splitLines_ne_nil _)
    | cons m ms =>
      rw [hsc] at hsp
      cases hsp
      have : u' <+: m :=
        ih (u' ++ t) (fun d hd => hnl d (List.mem_cons.mpr (Or.inr hd)))
          ⟨t, rfl⟩ hsc
      exact pre_cons this

/-- A line of `splitLines` stays inside some line after consing a character
onto the document. -/
theorem mem_splitLines_cons (c : Char) (cs l : List Char)
    (h : l ∈ splitLines cs) : ∃ l' ∈ splitLines (c :: cs), l <:+: l' := by
  by_cases hc : c = '\n'
  · exact ⟨l, by simp [splitLines, if_pos hc, h], ⟨[], [], by simp⟩⟩
  · cases hsc : splitLines cs with
    | nil => exact absurd hsc (splitLines_ne_nil cs)
    | cons l0 ls =>
      rw [hsc] at h
      rcases List.mem_cons.mp h with h1 | h1
      · subst h1
        exact ⟨c :: l, by simp [splitLines, if_neg hc, hsc], ⟨[c], [], by simp⟩⟩
      · exact ⟨l, by simp [splitLines, if_neg hc, hsc, h1], ⟨[], [], by simp⟩⟩

/-- A newline-free infix of a document is an infix of one of its lines. -/
theorem noNl_infixOf_line :
    ∀ (s t : List Char), (∀ c ∈ t, c ≠ '\n') → t <:+: s →
      ∃ l ∈ splitLines s, t <:+: l := by
  intro s
  induction s with
  | nil =>
    intro t _ hinf
    rcases hinf with ⟨u, v, huv⟩
    have ht : t = [] := by
      cases List.append_eq_nil.mp ((List.append_eq_nil.mp huv).1) with
      | intro h1 h2 => exact h2
    exact ⟨[], by simp [splitLines], by simp [ht]⟩
  | cons c cs ih =>
    intro t hnl hinf
    rcases hinf with ⟨u, v, huv⟩
    cases u with
    | cons a u' =>
      have hcs : t <:+: cs := by
        simp only [List.cons_append] at huv
        cases huv
        exact ⟨u', v, rfl⟩
      rcases ih t hnl hcs with ⟨l, hl, hinf'⟩
      rcases mem_splitLines_cons c cs l hl with ⟨l', hl', hinf''⟩
      exact ⟨l', hl', hinf'.trans hinf''⟩
    | nil =>
      have hpre : t <+: c :: cs := ⟨v, by simpa using huv⟩
      cases hsp : splitLines (c :: cs) with
      | nil => exact absurd hsp (splitLines_ne_nil _)
      | cons l0 ls =>
        have := noNl_pre_head t (c :: cs) hnl hpre hsp
        exact ⟨l0, by simp [hsp], infixOf_pre this⟩

/-- If the stripped line passes the arrow test, the arrow substring occurs in
the raw line. -/
theorem arrow_of_hasArrow_strip {l : List Char}
    (h : hasArrow (pyStrip l) = true) : ['-', '-', '>'] <:+: l := by
  have h1 : ['-', '-', '>'] <:+: pyStrip l := of_decide_eq_true h
  exact h1.trans (pyStrip_infixOf l)

/-- Lines without arrows never advance the filter state past the header. -/
theorem runFilter_skip :
    ∀ (ls : List (List Char)) (st : FiltState), st.pastHeader = false →
      (∀ l ∈ ls, hasArrow (pyStrip l) = false) →
      List.foldl filterStep st ls = st := by
  intro ls
  induction ls with
  | nil => intro st _ _; rfl
  | cons l ls ih =>
    intro st hph hno
    have hstep : filterStep st l = st := by
      simp [filterStep, hno l (by simp), hph]
    rw [List.foldl_cons, hstep]
    exact ih st hph (fun m hm => hno m (List.mem_cons.mpr (Or.inr hm)))

/-- One filter step either leaves the content unchanged or appends the
stripped line, which is then known to be a fresh non-empty tag-free line. -/
theorem filterStep_cases (st : FiltState) (l : List Char) :
    (filterStep st l).content = st.content ∨
    ((filterStep st l).content = st.content ++ [pyStrip l] ∧
      hasArrow (pyStrip l) = false ∧ pyStrip l ≠ [] ∧
      '<' ∉ pyStrip l ∧ '>' ∉ pyStrip l ∧
      (∀ x ∈ st.content.getLast?, x ≠ pyStrip l)) := by
  by_cases hA : hasArrow (pyStrip l) = true
  · left; simp [filterStep, hA]
  · by_cases hph : st.pastHeader = false
    · left; simp [filterStep, hA, hph]
    · by_cases hcap : st.captureNext = true ∧ pyStrip l ≠ [] ∧
          '<' ∉ pyStrip l ∧ '>' ∉ pyStrip l
      · by_cases happ : st.content = [] ∨ st.content.getLast? ≠ some (pyStrip l)
        · right
          refine ⟨by simp [filterStep, hA, hph, hcap, happ],
            Bool.eq_false_iff.mpr hA, hcap.2.1, hcap.2.2.1, hcap.2.2.2, ?_⟩
          intro x hx he
          rcases happ with h0 | h0
          · rw [h0] at hx; simp at hx
          · exact h0 (he ▸ hx)
        · left; simp [filterStep, hA, hph, hcap, happ]
      · left; simp [filterStep, hA, hph, hcap]

/-- The filter loop preserves goodness and adjacent distinctness of the
accumulated content lines. -/
theorem runFilter_inv :
    ∀ (ls : List (List Char)) (st : FiltState),
      (∀ l ∈ ls, '\n' ∉ l) →
      (∀ l ∈ st.content, goodLine l) →
      List.Chain' (fun a b => a ≠ b) st.content →
      (∀ l ∈ (List.foldl filterStep st ls).content, goodLine l) ∧
        List.Chain' (fun a b => a ≠ b) (List.foldl filterStep st ls).content := by
  intro ls
  induction ls with
  | nil => intro st _ hg hc; exact ⟨hg, hc⟩
  | cons l ls ih =>
    intro st hnl hg hc
    rw [List.foldl_cons]
    have hstep : (∀ m ∈ (filterStep st l).content, goodLine m) ∧
        List.Chain' (fun a b => a ≠ b) (filterStep st l).content := by
      rcases filterStep_cases st l with h | ⟨heq, hA, hne, hlt, hgt, hlast⟩
      · rw [h]; exact ⟨hg, hc⟩
      · rw [heq]
        constructor
        · intro m hm
          rcases List.mem_append.mp hm with hm1 | hm2
          · exact hg m hm1
          · have hmeq : m = pyStrip l := by simpa using hm2
            subst hmeq
            refine ⟨hne, hlt, hgt, hA, pyStrip_idem l, ?_⟩
            intro hmem
            have hinl : '\n' ∈ l := by
              rcases pyStrip_infixOf l with ⟨u, v, huv⟩
              rw [← huv]
              exact List.mem_append.mpr
                (Or.inl (List.mem_append.mpr (Or.inr hmem)))
            exact hnl l (by simp) hinl
        · rw [List.chain'_append]
          refine ⟨hc, List.chain'_singleton _, ?_⟩
          intro x hx y hy
          simp at hy
          subst hy
          exact hlast x hx
    exact ih (filterStep st l)
      (fun m hm => hnl m (List.mem_cons.mpr (Or.inr hm))) hstep.1 hstep.2

/-- Every content line emitted by `filter_subtitles` satisfies the
invariant. -/
theorem contentLines_good (s : List Char) : ∀ l ∈ contentLines s, goodLine l :=
  (runFilter_inv (splitLines (pyStrip s)) initState
    (noNl_of_mem_splitLines (pyStrip s))
    (by intro l hl; simp [initState] at hl)
    (by simp [initState])).1

/-- Adjacent content lines emitted by `filter_subtitles` always differ. -/
theorem contentLines_chain (s : List Char) :
    List.Chain' (fun a b => a ≠ b) (contentLines s) :=
  (runFilter_inv (splitLines (pyStrip s)) initState
    (noNl_of_mem_splitLines (pyStrip s))
    (by intro l hl; simp [initState] at hl)
    (by simp [initState])).2

/-- On an arrow-free line, content length plus pending-capture budget never
grows. -/
theorem filterStep_measure (st : FiltState) (l : List Char)
    (h : hasArrow (pyStrip l) = false) :
    (filterStep st l).content.length +
        (if (filterStep st l).captureNext = true then 1 else 0) ≤
      st.content.length + (if st.captureNext = true then 1 else 0) := by
  by_cases hph : st.pastHeader = false
  · simp [filterStep, h, hph]
  · by_cases hcap : st.captureNext = true ∧ pyStrip l ≠ [] ∧
        '<' ∉ pyStrip l ∧ '>' ∉ pyStrip l
    · by_cases happ : st.content = [] ∨ st.content.getLast? ≠ some (pyStrip l)
      · simp [filterStep, h, hph, hcap, happ, hcap.1]
      · simp [filterStep, h, hph, hcap, happ, hcap.1]
    · simp [filterStep, h, hph, hcap]

/-- Over a run of arrow-free lines the measure is monotone. -/
theorem fold_measure :
    ∀ (mid : List (List Char)) (st : FiltState),
      (∀ l ∈ mid, hasArrow (pyStrip l) = false) →
      (List.foldl filterStep st mid).content.length +
          (if (List.foldl filterStep st mid).captureNext = true then 1 else 0) ≤
        st.content.length + (if st.captureNext = true then 1 else 0) := by
  intro mid
  induction mid with
  | nil => intro st _; exact Nat.le_refl _
  | cons l mid ih =>
    intro st hno
    rw [List.foldl_cons]
    exact Nat.le_trans
      (ih (filterStep st l) (fun m hm => hno m (List.mem_cons.mpr (Or.inr hm))))
      (filterStep_measure st l (hno l (by simp)))

/-- A timing-marker line always turns on the capture flag. -/
theorem filterStep_arrow (st : FiltState) (m : List Char)
    (h : hasArrow (pyStrip m) = true) :
    filterStep st m =
      { pastHeader := true, captureNext := true, content := st.content } := by
  simp [filterStep, h]

/-- Splitting a newline-free list yields just that list. -/
theorem splitLines_noNl : ∀ {l : List Char}, '\n' ∉ l → splitLines l = [l] := by
  intro l
  induction l with
  | nil => intro _; rfl
  | cons c cs ih =>
    intro h
    have hc : c ≠ '\n' := fun he => h (by simp [he])
    have hcs : splitLines cs = [cs] := ih (fun hm => h (by simp [hm]))
    simp [splitLines, if_neg hc, hcs]

/-- Splitting after a newline-free chunk and an explicit newline peels off one
line. -/
theorem splitLines_append_nl :
    ∀ {l u : List Char}, '\n' ∉ l →
      splitLines (l ++ '\n' :: u) = l :: splitLines u := by
  intro l
  induction l with
  | nil => intro u _; simp [splitLines]
  | cons c cs ih =>
    intro u h
    have hc : c ≠ '\n' := fun he => h (by simp [he])
    have hcs := ih (u := u) (fun hm => h (by simp [hm]))
    simp [splitLines, if_neg hc, hcs]

/-- Splitting undoes joining for a non-empty list of newline-free lines. -/
theorem splitLines_joinLines :
    ∀ (ls : List (List Char)), ls ≠ [] → (∀ l ∈ ls, '\n' ∉ l) →
      splitLines (joinLines ls) = ls := by
  intro ls
  induction ls with
  | nil => intro h _; exact absurd rfl h
  | cons l ls ih =>
    intro _ hnl
    cases ls with
    | nil => exact splitLines_noNl (hnl l (by simp))
    | cons m ms =>
      have hjoin : joinLines (l :: m :: ms) = l ++ '\n' :: joinLines (m :: ms) := rfl
      rw [hjoin, splitLines_append_nl (hnl l (by simp))]
      rw [ih (by simp) (fun x hx => hnl x (List.mem_cons.mpr (Or.inr hx)))]

/-- The first line is a prefix of the joined list. -/
theorem joinLines_head_pre :
    ∀ (l : List Char) (ls : List (List Char)), l <+: joinLines (l :: ls) := by
  intro l ls
  cases ls with
  | nil => exact ⟨[], by simp [joinLines]⟩
  | cons m ms => exact ⟨'\n' :: joinLines (m :: ms), rfl⟩

/-- The last line is a suffix of the joined list. -/
theorem joinLines_getLast_suf :
    ∀ (ls : List (List Char)) (l : List Char), ls.getLast? = some l →
      l <:+ joinLines ls := by
  intro ls
  induction ls with
  | nil => intro l h; simp at h
  | cons m ms ih =>
    intro l h
    cases ms with
    | nil =>
      simp at h
      subst h
      exact ⟨[], by simp [joinLines]⟩
    | cons m2 ms2 =>
      rw [List.getLast?_cons_cons] at h
      rcases ih l h with ⟨u, hu⟩
      exact ⟨m ++ '\n' :: u, by simp [joinLines, hu]⟩

/-- Wrapping preserves the last line. -/
theorem wrapMarkers_getLast? :
    ∀ (ls : List (List Char)) (l : List Char), ls.getLast? = some l →
      (wrapMarkers ls).getLast? = some l := by
  intro ls
  induction ls with
  | nil => intro l h; simp at h
  | cons m ms ih =>
    intro l h
    cases ms with
    | nil =>
      simp at h
      subst h
      rfl
    | cons m2 ms2 =>
      rw [List.getLast?_cons_cons] at h
      have h2 := ih l h
      have hw : wrapMarkers (m2 :: ms2) = synthMarker :: m2 :: wrapMarkers ms2 := rfl
      show (synthMarker :: m :: wrapMarkers (m2 :: ms2)).getLast? = some l
      rw [List.getLast?_cons_cons, hw, List.getLast?_cons_cons]
      rw [hw] at h2
      exact h2

/-- Members of a wrapped list are the marker or original lines. -/
theorem mem_wrapMarkers :
    ∀ (ls : List (List Char)) (l : List Char), l ∈ wrapMarkers ls →
      l = synthMarker ∨ l ∈ ls := by
  intro ls
  induction ls with
  | nil => intro l h; simp [wrapMarkers] at h
  | cons m ms ih =>
    intro l h
    rcases List.mem_cons.mp h with h1 | h1
    · exact Or.inl h1
    · rcases List.mem_cons.mp h1 with h2 | h2
      · exact Or.inr (by simp [h2])
      · rcases ih l h2 with h3 | h3
        · exact Or.inl h3
        · exact Or.inr (List.mem_cons.mpr (Or.inr h3))

/-- A capturing step: header passed, capture pending, the stripped line is
non-empty, tag-free, arrow-free and differs from the last content line. -/
theorem filterStep_capture (st : FiltState) (l : List Char)
    (hA : hasArrow (pyStrip l) = false) (hph : st.pastHeader = true)
    (hcap : st.captureNext = true) (hne : pyStrip l ≠ [])
    (hlt : '<' ∉ pyStrip l) (hgt : '>' ∉ pyStrip l)
    (hguard : st.content = [] ∨ st.content.getLast? ≠ some (pyStrip l)) :
    filterStep st l =
      { pastHeader := st.pastHeader, captureNext := false,
        content := st.content ++ [pyStrip l] } := by
  simp [filterStep, hA, hph, hcap, hne, hlt, hgt, hguard]

/-- Replaying the filter on marker-wrapped good lines reproduces them. -/
theorem fold_wrap :
    ∀ (out : List (List Char)) (st : FiltState),
      (∀ l ∈ out, goodLine l) →
      List.Chain' (fun a b => a ≠ b) (st.content ++ out) →
      (List.foldl filterStep st (wrapMarkers out)).content =
        st.content ++ out := by
  intro out
  induction out with
  | nil => intro st _ _; simp [wrapMarkers]
  | cons l out ih =>
    intro st hgood hchain
    have hg : goodLine l := hgood l (by simp)
    rcases hg with ⟨hne, hlt, hgt, hA, hstr, _⟩
    have hstep1 : filterStep st synthMarker =
        { pastHeader := true, captureNext := true, content := st.content } :=
      filterStep_arrow st synthMarker (by decide)
    have hguard : st.content = [] ∨ st.content.getLast? ≠ some l := by
      cases hlast : st.content.getLast? with
      | none => exact Or.inr (by simp)
      | some x =>
        refine Or.inr ?_
        intro he
        have hx : x = l := by simpa using he
        subst hx
        have hcond := (List.chain'_append.mp hchain).2.2 x (by rw [hlast]; rfl)
        exact hcond x (by simp) rfl
    have hstep2 : filterStep ⟨true, true, st.content⟩ l =
        ⟨true, false, st.content ++ [l]⟩ := by
      have h2 := filterStep_capture ⟨true, true, st.content⟩ l
        (by rw [hstr]; exact hA) rfl rfl (by rw [hstr]; exact hne)
        (by rw [hstr]; exact hlt) (by rw [hstr]; exact hgt)
        (by rw [hstr]; exact hguard)
      rw [hstr] at h2
      exact h2
    show (List.foldl filterStep st
      (synthMarker :: l :: wrapMarkers out)).content = st.content ++ (l :: out)
    rw [List.foldl_cons, hstep1, List.foldl_cons, hstep2]
    have hchain2 : List.Chain' (fun a b => a ≠ b) ((st.content ++ [l]) ++ out) := by
      rw [List.append_assoc]
      exact hchain
    have hih := ih ⟨true, false, st.content ++ [l]⟩
      (fun m hm => hgood m (List.mem_cons.mpr (Or.inr hm))) hchain2
    rw [hih]
    simp

/-- The regex scan finds the leftmost matching position. -/
theorem searchVid_match :
    ∀ (s : List Char) (i : ℕ), vMatch (s.drop i) = true →
      (∀ j, j < i → vMatch (s.drop j) = false) →
      searchVid s = some (List.takeWhile isIdChar (s.drop (i + 2))) := by
  intro s
  induction s with
  | nil =>
    intro i h _
    rw [List.drop_nil] at h
    simp [vMatch] at h
  | cons c rest ih =>
    intro i h hmin
    cases i with
    | zero =>
      rw [List.drop_zero] at h
      rw [show searchVid (c :: rest) =
        some (List.takeWhile isIdChar (rest.drop 1)) from by simp [searchVid, h]]
      rfl
    | succ i' =>
      have h0 : vMatch (c :: rest) = false := hmin 0 (Nat.succ_pos i')
      rw [show searchVid (c :: rest) = searchVid rest from by
        simp [searchVid, h0]]
      have ih' := ih i' (by simpa using h) (fun j hj => by
        have := hmin (j + 1) (Nat.succ_lt_succ hj)
        simpa using this)
      rw [ih']
      rfl

/-- Without a matching position the regex scan fails. -/
theorem searchVid_none :
    ∀ (s : List Char), (∀ i, i < s.length → vMatch (s.drop i) = false) →
      searchVid s = none := by
  intro s
  induction s with
  | nil => intro _; rfl
  | cons c rest ih =>
    intro h
    have h0 : vMatch (c :: rest) = false := h 0 (by simp)
    rw [show searchVid (c :: rest) = searchVid rest from by simp [searchVid, h0]]
    exact ih (fun i hi => by
      have := h (i + 1) (by simpa using Nat.succ_lt_succ hi)
      simpa using this)

/-- A successful regex match consists of identifier characters only. -/
theorem searchVid_id_chars :
    ∀ (s r : List Char), searchVid s = some r → ∀ c ∈ r, isIdChar c = true := by
  intro s
  induction s with
  | nil => intro r h; simp [searchVid] at h
  | cons c rest ih =>
    intro r h d hd
    by_cases hm : vMatch (c :: rest) = true
    · rw [show searchVid (c :: rest) =
        some (List.takeWhile isIdChar (rest.drop 1)) from by
          simp [searchVid, hm]] at h
      have hr : r = List.takeWhile isIdChar (rest.drop 1) := by simpa using h.symm
      subst hr
      exact List.mem_takeWhile_imp hd
    · rw [show searchVid (c :: rest) = searchVid rest from by
        simp [searchVid, hm]] at h
      exact ih r h d hd

/-- C1: on the concrete seven-line document of the end-to-end scenario, the
Caption Filter returns exactly the two-line transcript
"hello world\ngoodbye now": the second "hello world" is suppressed as an
adjacent duplicate, the tagged line is skipped without consuming the capture,
and "goodbye now" is captured. -/
theorem claim_c1 :
    filter_subtitles
        ("00:00:00.000 --> 00:00:02.000\nhello world\n00:00:02.000 --> 00:00:04.000\nhello world\n00:00:04.000 --> 00:00:06.000\n<c>goodbye</c>\ngoodbye now").toList
      = ("hello world\ngoodbye now").toList := by decide

/-- C2: for every input document, no line in the output of the Caption Filter
equals the line appended immediately before it (adjacent-duplicate
suppression, not global deduplication). -/
theorem claim_c2 (s : List Char) :
    List.Chain' (fun a b => a ≠ b) (contentLines s) :=
  contentLines_chain s

/-- C3: for every input string in which no line contains the timing-marker
substring "-->", the Caption Filter returns the empty transcript. -/
theorem claim_c3 (s : List Char)
    (h : ∀ l ∈ splitLines s, ¬ (['-', '-', '>'] <:+: l)) :
    filter_subtitles s = [] := by
  have hno : ∀ l ∈ splitLines (pyStrip s), hasArrow (pyStrip l) = false := by
    intro l hl
    cases hA : hasArrow (pyStrip l) with
    | false => rfl
    | true =>
      exfalso
      have h1 : ['-', '-', '>'] <:+: l := arrow_of_hasArrow_strip hA
      have h2 : l <:+: pyStrip s := mem_splitLines_infixOf (pyStrip s) l hl
      have h3 : ['-', '-', '>'] <:+: s := (h1.trans h2).trans (pyStrip_infixOf s)
      have h4 : ∀ c ∈ ['-', '-', '>'], c ≠ '\n' := by decide
      rcases noNl_infixOf_line s ['-', '-', '>'] h4 h3 with ⟨m, hm, hinf⟩
      exact h m hm hinf
  have hrun : List.foldl filterStep initState (splitLines (pyStrip s)) =
      initState := runFilter_skip (splitLines (pyStrip s)) initState rfl hno
  show joinLines (List.foldl filterStep initState
    (splitLines (pyStrip s))).content = []
  rw [hrun]
  rfl

/-- C3 witness: a concrete document with no timing marker yields the empty
transcript. -/
theorem claim_c3_witness : filter_subtitles ("abc\ndef").toList = [] :=
  claim_c3 ("abc\ndef").toList (by decide)

/-- C4: for every input document, a line that contains the character '<' or
the character '>' never appears in the output of the Caption Filter. -/
theorem claim_c4 (s l : List Char) (h : '<' ∈ l ∨ '>' ∈ l) :
    l ∉ contentLines s := by
  intro hmem
  rcases contentLines_good s l hmem with ⟨_, hlt, hgt, _, _, _⟩
  rcases h with h | h
  · exact hlt h
  · exact hgt h

/-- C4 witness: the tagged line of a concrete document is absent from the
output even though it follows a timing marker. -/
theorem claim_c4_witness :
    ("<c>x</c>").toList ∉ contentLines ("-->\n<c>x</c>").toList :=
  claim_c4 ("-->\n<c>x</c>").toList ("<c>x</c>").toList (Or.inl (by decide))

/-- C5: for every input document, between a timing-marker line and the next
timing-marker line (or end of input), the Caption Filter appends at most one
line to the output. -/
theorem claim_c5 (s : List Char) (pre : List (List Char)) (m : List Char)
    (mid rest : List (List Char))
    (_hdoc : splitLines (pyStrip s) = pre ++ m :: (mid ++ rest))
    (hm : hasArrow (pyStrip m) = true)
    (hmid : ∀ l ∈ mid, hasArrow (pyStrip l) = false) :
    (runFilter (pre ++ m :: mid)).content.length ≤
      (runFilter (pre ++ [m])).content.length + 1 := by
  have hsplit : pre ++ m :: mid = (pre ++ [m]) ++ mid := by simp
  rw [hsplit]
  show (List.foldl filterStep initState ((pre ++ [m]) ++ mid)).content.length ≤ _
  rw [List.foldl_append]
  have hcap : (List.foldl filterStep initState (pre ++ [m])).captureNext = true := by
    rw [List.foldl_append, List.foldl_cons, List.foldl_nil,
      filterStep_arrow _ m hm]
  have hmes := fold_measure mid (List.foldl filterStep initState (pre ++ [m])) hmid
  rw [hcap] at hmes
  simp only [if_pos rfl] at hmes
  exact Nat.le_trans (Nat.le_add_right _ _) hmes

/-- C5 witness: a concrete document with one marker followed by two plain
lines captures at most one of them. -/
theorem claim_c5_witness :
    (runFilter ([] ++ ("-->").toList :: [("a").toList, ("b").toList])).content.length ≤
      (runFilter ([] ++ [("-->").toList])).content.length + 1 :=
  claim_c5 ("-->\na\nb").toList [] ("-->").toList
    [("a").toList, ("b").toList] [] (by decide) (by decide) (by decide)

/-- C6: splitting the Caption Filter's output into lines, prefixing each line
with a synthetic timing-marker line and re-running the Caption Filter yields
the same sequence of lines as the original output. -/
theorem claim_c6 (s : List Char) :
    splitLines (filter_subtitles (joinLines (wrapMarkers
        (splitLines (filter_subtitles s))))) =
      splitLines (filter_subtitles s) := by
  have hout := contentLines_good s
  have hchain := contentLines_chain s
  have hdef : filter_subtitles s = joinLines (contentLines s) := rfl
  cases hempty : contentLines s with
  | nil =>
    rw [hdef, hempty]
    decide
  | cons l0 rest0 =>
    have hne : contentLines s ≠ [] := by rw [hempty]; simp
    have hnl : ∀ m ∈ contentLines s, '\n' ∉ m :=
      fun m hm => (hout m hm).2.2.2.2.2
    have h1 : splitLines (filter_subtitles s) = contentLines s := by
      rw [hdef]
      exact splitLines_joinLines (contentLines s) hne hnl
    rw [h1]
    have hwshape : wrapMarkers (contentLines s) =
        synthMarker :: l0 :: wrapMarkers rest0 := by rw [hempty]; rfl
    have hwne : wrapMarkers (contentLines s) ≠ [] := by rw [hwshape]; simp
    have hwnl : ∀ m ∈ wrapMarkers (contentLines s), '\n' ∉ m := by
      intro m hm
      rcases mem_wrapMarkers (contentLines s) m hm with hh | hh
      · rw [hh]; decide
      · exact hnl m hh
    obtain ⟨ll, hll⟩ : ∃ ll, (contentLines s).getLast? = some ll := by
      cases hg : (contentLines s).getLast? with
      | none => exact absurd (List.getLast?_eq_none_iff.mp hg) hne
      | some x => exact ⟨x, rfl⟩
    have hllmem : ll ∈ contentLines s := by
      rcases List.mem_getLast?_eq_getLast (l := contentLines s) (x := ll)
        (by rw [hll]; rfl) with ⟨hx, heq⟩
      rw [heq]
      exact List.getLast_mem hx
    have hllgood := hout ll hllmem
    have hstrip : pyStrip (joinLines (wrapMarkers (contentLines s))) =
        joinLines (wrapMarkers (contentLines s)) := by
      apply pyStrip_eq_self
      · intro c hc
        have hpre : synthMarker <+:
            joinLines (wrapMarkers (contentLines s)) := by
          rw [hwshape]
          exact joinLines_head_pre synthMarker (l0 :: wrapMarkers rest0)
        rcases hpre with ⟨t, ht⟩
        rw [← ht] at hc
        have hcm : '-' = c := by simpa [synthMarker] using hc
        rw [← hcm]
        decide
      · intro c hc
        have hwlast : (wrapMarkers (contentLines s)).getLast? = some ll :=
          wrapMarkers_getLast? (contentLines s) ll hll
        have hsuf : ll <:+ joinLines (wrapMarkers (contentLines s)) :=
          joinLines_getLast_suf (wrapMarkers (contentLines s)) ll hwlast
        rcases hsuf with ⟨u, hu⟩
        rw [← hu, List.getLast?_append] at hc
        obtain ⟨lc, hlc⟩ : ∃ lc, ll.getLast? = some lc := by
          cases hg : ll.getLast? with
          | none => exact absurd (List.getLast?_eq_none_iff.mp hg) hllgood.1
          | some x => exact ⟨x, rfl⟩
        rw [hlc] at hc
        simp at hc
        rw [← hc]
        apply pyStrip_getLast_false (s := ll)
        rw [hllgood.2.2.2.2.1]
        exact hlc
    have hsplit : splitLines (joinLines (wrapMarkers (contentLines s))) =
        wrapMarkers (contentLines s) :=
      splitLines_joinLines (wrapMarkers (contentLines s)) hwne hwnl
    have hcontent : contentLines (joinLines (wrapMarkers (contentLines s))) =
        contentLines s := by
      show (List.foldl filterStep initState (splitLines (pyStrip
        (joinLines (wrapMarkers (contentLines s)))))).content = contentLines s
      rw [hstrip, hsplit]
      have hfw := fold_wrap (contentLines s) initState hout
        (by simpa [initState] using hchain)
      simpa [initState] using hfw
    have hdone : filter_subtitles (joinLines (wrapMarkers (contentLines s))) =
        joinLines (contentLines (joinLines (wrapMarkers (contentLines s)))) := rfl
    rw [hdone, hcontent]
    exact splitLines_joinLines (contentLines s) hne hnl

/-- C7: the Identifier Extractor returns the maximal run of identifier
characters immediately following the leftmost position where a `v=` marker is
followed by at least one identifier character, returns the input unchanged
when no such position exists, and maps the three example inputs accordingly. -/
theorem claim_c7 :
    extract_video_id ("https://www.youtube.com/watch?v=a4sHHnlasPQ").toList
        = ("a4sHHnlasPQ").toList ∧
    extract_video_id ("a4sHHnlasPQ").toList = ("a4sHHnlasPQ").toList ∧
    extract_video_id ("v=abc-123&t=5").toList = ("abc-123").toList ∧
    (∀ (s : List Char) (i : ℕ), vMatch (s.drop i) = true →
      (∀ j, j < i → vMatch (s.drop j) = false) →
      extract_video_id s = List.takeWhile isIdChar (s.drop (i + 2))) ∧
    (∀ s : List Char, (∀ i, i < s.length → vMatch (s.drop i) = false) →
      extract_video_id s = s) := by
  refine ⟨by decide, by decide, by decide, ?_, ?_⟩
  · intro s i h hmin
    show (searchVid s).getD s = _
    rw [searchVid_match s i h hmin]
    rfl
  · intro s h
    show (searchVid s).getD s = s
    rw [searchVid_none s h]
    rfl

/-- C7 witness: the leftmost-match clause at a concrete input with the marker
in the middle, and the pass-through clause at a concrete marker-free input. -/
theorem claim_c7_witness :
    extract_video_id ("xv=ab!cd").toList = ['a', 'b'] ∧
    extract_video_id ("hello").toList = ("hello").toList := by
  constructor
  · have h := claim_c7.2.2.2.1 ("xv=ab!cd").toList 1 (by decide)
      (fun j hj => by
        have hj0 : j = 0 := by omega
        subst hj0
        decide)
    exact h.trans (by decide)
  · exact claim_c7.2.2.2.2 ("hello").toList (by decide)

/-- C8 counterexample: on an input without a `v=` marker the pass-through
result can contain characters that are not word characters or hyphens, so the
claimed invariant fails in the pass-through case. -/
theorem claim_c8_cex : ¬ (∀ c ∈ extract_video_id ['!'], isIdChar c = true) := by
  decide

/-- C8 (amended): when the regex does match, the VideoIdentifier returned by
the Identifier Extractor contains only word characters and hyphens; in the
pass-through case the input is returned unchanged and may contain arbitrary
characters. -/
theorem claim_c8_amended (s r : List Char) (h : searchVid s = some r) :
    ∀ c ∈ extract_video_id s, isIdChar c = true := by
  have hr : extract_video_id s = r := by
    show (searchVid s).getD s = r
    rw [h]
    rfl
  rw [hr]
  exact searchVid_id_chars s r h

/-- C8 witness: the amended theorem applied at a concrete matching input. -/
theorem claim_c8_amended_witness : isIdChar 'a' = true :=
  claim_c8_amended ("v=ab").toList ['a', 'b'] (by decide) 'a' (by decide)

/-- C9: when the environment variable is falsy and the secrets store raises
`KeyError`, the Text-Completion Client shows the descriptive credential error,
sends no request to the hosted model, and halts without returning. -/
theorem claim_c9 (w : ClarifaiWorld) (raw_text prompt : String)
    (henv : pyTruthyStr w.envPat = false) (hsec : w.secretsPat = none) :
    (format_with_clarifai_api w raw_text prompt).errors =
        ["Failed to retrieve the Clarifai Personal Access Token!"] ∧
    (format_with_clarifai_api w raw_text prompt).requests = [] ∧
    (format_with_clarifai_api w raw_text prompt).ret = none := by
  simp [format_with_clarifai_api, henv, hsec]

/-- C9 witness: the concrete world with no credential anywhere. -/
theorem claim_c9_witness :
    (format_with_clarifai_api ⟨none, none, 10000, "", ""⟩ "t" "p").errors =
        ["Failed to retrieve the Clarifai Personal Access Token!"] ∧
    (format_with_clarifai_api ⟨none, none, 10000, "", ""⟩ "t" "p").requests = [] ∧
    (format_with_clarifai_api ⟨none, none, 10000, "", ""⟩ "t" "p").ret = none :=
  claim_c9 ⟨none, none, 10000, "", ""⟩ "t" "p" (by decide) rfl

/-- C10: when a credential is available and the hosted model answers with a
non-success status, the Text-Completion Client surfaces the provider's error
description and returns `None`, having sent the request. -/
theorem claim_c10 (w : ClarifaiWorld) (raw_text prompt : String)
    (hcred : pyTruthyStr w.envPat = true ∨ (∃ v, w.secretsPat = some v))
    (hstatus : w.apiStatusCode ≠ SUCCESS_CODE) :
    ("Error from Clarifai API: " ++ w.apiStatusDescription) ∈
        (format_with_clarifai_api w raw_text prompt).errors ∧
    (format_with_clarifai_api w raw_text prompt).ret = some none := by
  by_cases henv : pyTruthyStr w.envPat = true
  · cases he : w.envPat with
    | none => rw [he] at henv; simp [pyTruthyStr] at henv
    | some v =>
      rw [he] at henv
      simp [format_with_clarifai_api, he, henv, hstatus]
  · rcases hcred with hcred | ⟨v, hv⟩
    · exact absurd hcred henv
    · have henv' : pyTruthyStr w.envPat = false := Bool.eq_false_iff.mpr henv
      simp [format_with_clarifai_api, henv', hv, hstatus]

/-- C10 witness: a concrete world with an environment credential and a failing
status code. -/
theorem claim_c10_witness :
    ("Error from Clarifai API: " ++ "boom") ∈
        (format_with_clarifai_api ⟨some "k", none, 9999, "boom", ""⟩ "t" "p").errors ∧
    (format_with_clarifai_api ⟨some "k", none, 9999, "boom", ""⟩ "t" "p").ret =
        some none :=
  claim_c10 ⟨some "k", none, 9999, "boom", ""⟩ "t" "p" (Or.inl (by decide))
    (by decide)
